import Mathlib

/-!
Shallow embedding of `src/internal/color/yuyv_to_yuv420p.c` (YUYV packed to
YUV420 planar conversion) and verification of its specification claims.

Modelling conventions:
* Bytes are `Nat` (the kernel only copies bytes; no arithmetic is performed
  on pixel values, so no wrap-around modelling is needed).
* The four buffers the C code touches through pointers (`y`, `u`, `v`
  destination planes and the packed `yuyv` source) form a `Frame` record;
  a C pointer into a buffer is modelled as (buffer field, byte offset).
* Every load is a checked read (`List.get?`) and every store is a checked
  write (`wr`, failing outside the buffer), so the whole kernel is an
  `Option`-valued function: `none` means some access fell outside its
  buffer, `some` means the run was memory-safe and yields the final state.
* A C counted loop `for (i = 0; i < bound; i += step)` executes exactly
  `(bound + step - 1) / step` iterations (for `bound ≥ 0`); each loop is
  embedded as structural recursion on that iteration count, with a wrapper
  computing the count from `stride` (resp. `height`).
-/

namespace YUYV

/-- The memory a single conversion call can see: the three planar
destination buffers and the packed source buffer.  All four are caller
owned; the kernel is given byte offsets into them. -/
structure Frame where
  y : List Nat
  u : List Nat
  v : List Nat
  src : List Nat
deriving DecidableEq

/-- Checked byte store: `buf[i] = b`, failing if `i` is out of range. -/
def wr (l : List Nat) (i b : Nat) : Option (List Nat) :=
  if i < l.length then some (l.set i b) else none

/-- Store a byte into the luma plane. -/
def wrY (f : Frame) (i b : Nat) : Option Frame :=
  (wr f.y i b).map fun l => { f with y := l }

/-- Store a byte into the U plane. -/
def wrU (f : Frame) (i b : Nat) : Option Frame :=
  (wr f.u i b).map fun l => { f with u := l }

/-- Store a byte into the V plane. -/
def wrV (f : Frame) (i b : Nat) : Option Frame :=
  (wr f.v i b).map fun l => { f with v := l }

/-- Checked byte load from the packed source buffer. -/
def rd (f : Frame) (i : Nat) : Option Nat :=
  f.src[i]?

/-- Load `n` source bytes at offsets `so, so+step, so+2*step, …`
(models the de-interleaving NEON loads `vld2q_u8`/`vld2_u8`, which read a
contiguous block and split it into strided streams). -/
def rdList (f : Frame) (so step : Nat) : Nat → Option (List Nat)
  | 0 => some []
  | n+1 => do
    let b ← rd f so
    let rest ← rdList f (so + step) step n
    pure (b :: rest)

/-- Store a list of bytes at consecutive luma-plane offsets starting at
`yo` (models the NEON store `vst1q_u8`). -/
def wrYList (f : Frame) (yo : Nat) : List Nat → Option Frame
  | [] => some f
  | b :: rest => do
    let f ← wrY f yo b
    wrYList f (yo + 1) rest

/-- Store a list of bytes at consecutive U-plane offsets (NEON `vst1_u8`). -/
def wrUList (f : Frame) (uo : Nat) : List Nat → Option Frame
  | [] => some f
  | b :: rest => do
    let f ← wrU f uo b
    wrUList f (uo + 1) rest

/-- Store a list of bytes at consecutive V-plane offsets (NEON `vst1_u8`). -/
def wrVList (f : Frame) (vo : Nat) : List Nat → Option Frame
  | [] => some f
  | b :: rest => do
    let f ← wrV f vo b
    wrVList f (vo + 1) rest

/-- Loop body of the portable `unpack_even`: `n` remaining iterations of
`for (i = 0; i < stride; i += 4)`.  Each iteration consumes one 4-byte
group `[Y0, U, Y1, V]` exactly as the C statements
`*y++ = *yuyv++; *u++ = *yuyv++; *y++ = *yuyv++; *v++ = *yuyv++;`. -/
def unpack_even_go (f : Frame) (yo uo vo so : Nat) : Nat → Option Frame
  | 0 => some f
  | n+1 => do
    let b0 ← rd f so
    let f ← wrY f yo b0
    let b1 ← rd f (so + 1)
    let f ← wrU f uo b1
    let b2 ← rd f (so + 2)
    let f ← wrY f (yo + 1) b2
    let b3 ← rd f (so + 3)
    let f ← wrV f vo b3
    unpack_even_go f (yo + 2) (uo + 1) (vo + 1) (so + 4) n

/-- Portable (non-NEON) `unpack_even`: the C loop
`for (i = 0; i < stride; i += 4)` runs `(stride + 3) / 4` iterations. -/
def unpack_even (f : Frame) (yo uo vo so stride : Nat) : Option Frame :=
  unpack_even_go f yo uo vo so ((stride + 3) / 4)

/-- Loop body of the portable `unpack_odd`: each iteration copies the two
luma bytes of a 4-byte group and skips the two chroma bytes without
reading them (`*y++ = *yuyv++; yuyv++; *y++ = *yuyv++; yuyv++;`). -/
def unpack_odd_go (f : Frame) (yo so : Nat) : Nat → Option Frame
  | 0 => some f
  | n+1 => do
    let b0 ← rd f so
    let f ← wrY f yo b0
    let b2 ← rd f (so + 2)
    let f ← wrY f (yo + 1) b2
    unpack_odd_go f (yo + 2) (so + 4) n

/-- Portable (non-NEON) `unpack_odd`. -/
def unpack_odd (f : Frame) (yo so stride : Nat) : Option Frame :=
  unpack_odd_go f yo so ((stride + 3) / 4)

/-- Loop body of the NEON `unpack_even`: `n` remaining iterations of
`for (i = 0; i < stride; i += 32)`.  One iteration: `vld2q_u8` loads 32
source bytes and de-interleaves them into the 16 even-offset bytes (luma
stream, `val[0]`) and the 16 odd-offset bytes (chroma stream, `val[1]`);
`vld2_u8` de-interleaves the chroma stream into 8 U bytes (source offsets
`≡ 1 mod 4`) and 8 V bytes (offsets `≡ 3 mod 4`); `vst1q_u8`/`vst1_u8`
store the three streams contiguously. -/
def unpack_even_neon_go (f : Frame) (yo uo vo so : Nat) : Nat → Option Frame
  | 0 => some f
  | n+1 => do
    let luma ← rdList f so 2 16
    let us ← rdList f (so + 1) 4 8
    let vs ← rdList f (so + 3) 4 8
    let f ← wrYList f yo luma
    let f ← wrUList f uo us
    let f ← wrVList f vo vs
    unpack_even_neon_go f (yo + 16) (uo + 8) (vo + 8) (so + 32) n

/-- NEON `unpack_even`: `for (i = 0; i < stride; i += 32)` runs
`(stride + 31) / 32` iterations. -/
def unpack_even_neon (f : Frame) (yo uo vo so stride : Nat) : Option Frame :=
  unpack_even_neon_go f yo uo vo so ((stride + 31) / 32)

/-- Loop body of the NEON `unpack_odd`: `vld2q_u8` loads 32 bytes and
de-interleaves; only the luma stream `val[0]` is stored, the chroma stream
`val[1]` is loaded but discarded. -/
def unpack_odd_neon_go (f : Frame) (yo so : Nat) : Nat → Option Frame
  | 0 => some f
  | n+1 => do
    let luma ← rdList f so 2 16
    let _uv ← rdList f (so + 1) 2 16
    let f ← wrYList f yo luma
    unpack_odd_neon_go f (yo + 16) (so + 32) n

/-- NEON `unpack_odd`. -/
def unpack_odd_neon (f : Frame) (yo so stride : Nat) : Option Frame :=
  unpack_odd_neon_go f yo so ((stride + 31) / 32)

/-- Loop body of `yuyv_to_yuv420p` (portable strategy): `n` remaining
iterations of `for (row = 0; row < height; row += 2)`, each processing one
row pair with exactly the pointer updates of the C code. -/
def yuyv_to_yuv420p_go (f : Frame) (yo uo vo so stride : Nat) :
    Nat → Option Frame
  | 0 => some f
  | n+1 => do
    let f ← unpack_even f yo uo vo so stride
    let yo := yo + stride / 2
    let uo := uo + stride / 4
    let vo := vo + stride / 4
    let so := so + stride
    let f ← unpack_odd f yo so stride
    let yo := yo + stride / 2
    let so := so + stride
    yuyv_to_yuv420p_go f yo uo vo so stride n

/-- Embedding of `yuyv_to_yuv420p` (portable strategy): the C loop
`for (row = 0; row < height; row += 2)` runs `(height + 1) / 2`
iterations, starting with all plane and source offsets at 0. -/
def yuyv_to_yuv420p (f : Frame) (stride height : Nat) : Option Frame :=
  yuyv_to_yuv420p_go f 0 0 0 0 stride ((height + 1) / 2)

/-- Specification-side sampler: the `n` bytes of `src` at offsets
`off, off+step, off+2*step, …` (out-of-range positions default to 0; the
characterization lemmas only use it under in-range hypotheses). -/
def sampleBytes (src : List Nat) (off step : Nat) : Nat → List Nat
  | 0 => []
  | n+1 => src.getD off 0 :: sampleBytes src (off + step) step n

/-- Specification-side segment write: overwrite `buf[off …]` with the
bytes of `seg`, position by position. -/
def setSeg (buf : List Nat) (off : Nat) : List Nat → List Nat
  | [] => buf
  | b :: rest => setSeg (buf.set off b) (off + 1) rest

/-- Specification-side chroma plane segment: `m` chroma rows of
`stride / 4` bytes each, one per row pair; the sampling offset advances by
`2 * stride` (one row pair) between rows, and within a row the step is 4
(`off = so + 1` for the U plane, `so + 3` for the V plane). -/
def chromaSeg (src : List Nat) (off stride : Nat) : Nat → List Nat
  | 0 => []
  | m+1 => sampleBytes src off 4 (stride / 4) ++
      chromaSeg src (off + 2 * stride) stride m

/-- Frame-effect relation: `f'` differs from `f` at most in the contents
of the three destination planes — the source is byte-for-byte unchanged
and no buffer changed length. -/
def preserves (f f' : Frame) : Prop :=
  f'.src = f.src ∧ f'.y.length = f.y.length ∧
  f'.u.length = f.u.length ∧ f'.v.length = f.v.length

/-- The spec's minimal frame: `width = 4, height = 2, stride = 8`, with
exactly sized destination planes (luma 4×2, chroma 2×1 each). -/
def testFrame : Frame :=
  { y := List.replicate 8 0, u := List.replicate 2 0, v := List.replicate 2 0,
    src := [100, 128, 101, 64, 102, 128, 103, 64,
            110, 0, 111, 0, 112, 0, 113, 0] }

/-- A one-row (32 bytes = 16 pixels) frame whose stride satisfies the NEON
block-size precondition, used to instantiate the strategy-equivalence
theorem. -/
def testFrame32 : Frame :=
  { y := List.replicate 16 0, u := List.replicate 8 0, v := List.replicate 8 0,
    src := List.range 32 }

/-- A `width = 3` (odd) frame, `stride = 6`, with oversized destination
planes so that the misaligned writes of the unchecked conversion stay in
range. -/
def testFrame6 : Frame :=
  { y := List.replicate 16 0, u := List.replicate 4 0, v := List.replicate 4 0,
    src := [1, 2, 3, 4, 5, 6, 7, 8, 9, 10, 11, 12, 13, 14, 15, 16] }

/-- The expected result of converting `testFrame` (or of converting the
same source with `height = 1`, which the unchecked loop also runs as one
full row pair). -/
def testFrameOut : Frame :=
  { y := [100, 101, 102, 103, 110, 111, 112, 113],
    u := [128, 128], v := [64, 64],
    src := [100, 128, 101, 64, 102, 128, 103, 64,
            110, 0, 111, 0, 112, 0, 113, 0] }

/-! ### Basic facts about the checked memory operations -/

theorem rd_in (f : Frame) (i : Nat) (h : i < f.src.length) :
    rd f i = some (f.src.getD i 0) := by
  have h1 : f.src[i]? = some f.src[i] := List.getElem?_eq_some.mpr ⟨h, rfl⟩
  simp [rd, h1, List.getD_eq_getElem?_getD]

theorem wrY_in (f : Frame) (i b : Nat) (h : i < f.y.length) :
    wrY f i b = some { f with y := f.y.set i b } := by
  simp [wrY, wr, h]

theorem wrU_in (f : Frame) (i b : Nat) (h : i < f.u.length) :
    wrU f i b = some { f with u := f.u.set i b } := by
  simp [wrU, wr, h]

theorem wrV_in (f : Frame) (i b : Nat) (h : i < f.v.length) :
    wrV f i b = some { f with v := f.v.set i b } := by
  simp [wrV, wr, h]

/-! ### Facts about the specification-side segment operations -/

theorem sampleBytes_length (src : List Nat) (off step : Nat) :
    ∀ n, (sampleBytes src off step n).length = n := by
  intro n
  induction n generalizing off with
  | zero => rfl
  | succ n ih => simp [sampleBytes, ih]

theorem sampleBytes_add (src : List Nat) (step : Nat) :
    ∀ (m : Nat) (off n : Nat),
      sampleBytes src off step (m + n) =
        sampleBytes src off step m ++ sampleBytes src (off + step * m) step n := by
  intro m
  induction m with
  | zero => intro off n; simp [sampleBytes]
  | succ m ih =>
    intro off n
    have e : m + 1 + n = (m + n) + 1 := by omega
    rw [e]
    simp only [sampleBytes, ih (off + step), List.cons_append]
    have e2 : off + step + step * m = off + step * (m + 1) := by ring
    rw [e2]

theorem sampleBytes_getElem? (src : List Nat) (step : Nat) :
    ∀ (n off j : Nat), j < n →
      (sampleBytes src off step n)[j]? = some (src.getD (off + step * j) 0) := by
  intro n
  induction n with
  | zero => intro off j hj; omega
  | succ n ih =>
    intro off j hj
    cases j with
    | zero => simp [sampleBytes]
    | succ j =>
      have e : off + step * (j + 1) = (off + step) + step * j := by ring
      simp only [sampleBytes, List.getElem?_cons_succ, e]
      exact ih (off + step) j (by omega)

theorem setSeg_length : ∀ (seg : List Nat) (buf : List Nat) (off : Nat),
    (setSeg buf off seg).length = buf.length := by
  intro seg
  induction seg with
  | nil => intro buf off; rfl
  | cons b rest ih => intro buf off; simp [setSeg, ih, List.length_set]

theorem setSeg_append : ∀ (a : List Nat) (buf b : List Nat) (off : Nat),
    setSeg buf off (a ++ b) = setSeg (setSeg buf off a) (off + a.length) b := by
  intro a
  induction a with
  | nil => intro buf b off; simp [setSeg]
  | cons x rest ih =>
    intro buf b off
    simp only [List.cons_append, setSeg, List.length_cons, List.append_eq]
    rw [ih (buf.set off x) b (off + 1)]
    have e : off + 1 + rest.length = off + (rest.length + 1) := by omega
    rw [e]

theorem setSeg_getElem?_lt : ∀ (seg buf : List Nat) (off i : Nat), i < off →
    (setSeg buf off seg)[i]? = buf[i]? := by
  intro seg
  induction seg with
  | nil => intro buf off i _; rfl
  | cons b rest ih =>
    intro buf off i hi
    simp only [setSeg]
    rw [ih (buf.set off b) (off + 1) i (by omega)]
    exact List.getElem?_set_ne (by omega)

theorem setSeg_getElem?_in : ∀ (seg buf : List Nat) (off k : Nat),
    k < seg.length → off + seg.length ≤ buf.length →
    (setSeg buf off seg)[off + k]? = seg[k]? := by
  intro seg
  induction seg with
  | nil => intro buf off k hk _; simp at hk
  | cons b rest ih =>
    intro buf off k hk hb
    cases k with
    | zero =>
      simp only [setSeg, Nat.add_zero]
      rw [setSeg_getElem?_lt rest (buf.set off b) (off + 1) off (by omega)]
      simp only [List.getElem?_cons_zero]
      exact List.getElem?_set_eq_of_lt b (by simp at hb ⊢; omega)
    | succ k =>
      have e : off + (k + 1) = (off + 1) + k := by omega
      simp only [setSeg, e, List.getElem?_cons_succ]
      exact ih (buf.set off b) (off + 1) k (by simp at hk; omega)
        (by simp [List.length_set] at hb ⊢; omega)

theorem chromaSeg_length (src : List Nat) (stride : Nat) :
    ∀ (m off : Nat), (chromaSeg src off stride m).length = m * (stride / 4) := by
  intro m
  induction m with
  | zero => intro off; simp [chromaSeg]
  | succ m ih =>
    intro off
    simp only [chromaSeg, List.length_append, sampleBytes_length, ih]
    ring

theorem chromaSeg_getElem? (src : List Nat) (stride : Nat) :
    ∀ (m off r c : Nat), r < m → c < stride / 4 →
      (chromaSeg src off stride m)[r * (stride / 4) + c]? =
        some (src.getD (off + 2 * stride * r + 4 * c) 0) := by
  intro m
  induction m with
  | zero => intro off r c hr _; omega
  | succ m ih =>
    intro off r c hr hc
    cases r with
    | zero =>
      simp only [chromaSeg, Nat.zero_mul, Nat.add_zero, Nat.mul_zero, Nat.zero_add]
      rw [List.getElem?_append_left (by rw [sampleBytes_length]; omega)]
      exact sampleBytes_getElem? src 4 (stride / 4) off c hc
    | succ r =>
      have e : (r + 1) * (stride / 4) + c = (stride / 4) + (r * (stride / 4) + c) := by ring
      simp only [chromaSeg, e]
      rw [List.getElem?_append_right (by rw [sampleBytes_length]; omega)]
      rw [sampleBytes_length, Nat.add_sub_cancel_left]
      rw [ih (off + 2 * stride) r c (by omega) hc]
      have e2 : off + 2 * stride + 2 * stride * r + 4 * c =
          off + 2 * stride * (r + 1) + 4 * c := by ring
      rw [e2]

/-! ### Characterization of the NEON-primitive load/store helpers -/

theorem rdList_in (f : Frame) (step : Nat) :
    ∀ (n so : Nat), so + step * n + 1 ≤ f.src.length + step →
      rdList f so step n = some (sampleBytes f.src so step n) := by
  intro n
  induction n with
  | zero => intro so _; rfl
  | succ n ih =>
    intro so hb
    have e : step * (n + 1) = step * n + step := by ring
    rw [e] at hb
    have hn : 0 ≤ step * n := by omega
    have h0 : so < f.src.length := by omega
    simp only [rdList, rd_in f so h0, Option.bind_eq_bind, Option.some_bind]
    rw [ih (so + step) (by omega)]
    simp [sampleBytes]

theorem wrYList_in : ∀ (l : List Nat) (f : Frame) (yo : Nat),
    yo + l.length ≤ f.y.length →
    wrYList f yo l = some { f with y := setSeg f.y yo l } := by
  intro l
  induction l with
  | nil => intro f yo _; simp [wrYList, setSeg]
  | cons b rest ih =>
    intro f yo hb
    simp only [List.length_cons] at hb
    simp only [wrYList, wrY_in f yo b (by omega), Option.bind_eq_bind, Option.some_bind]
    rw [ih { f with y := f.y.set yo b } (yo + 1)
      (by simp [List.length_set]; omega)]
    rfl

theorem wrUList_in : ∀ (l : List Nat) (f : Frame) (uo : Nat),
    uo + l.length ≤ f.u.length →
    wrUList f uo l = some { f with u := setSeg f.u uo l } := by
  intro l
  induction l with
  | nil => intro f uo _; simp [wrUList, setSeg]
  | cons b rest ih =>
    intro f uo hb
    simp only [List.length_cons] at hb
    simp only [wrUList, wrU_in f uo b (by omega), Option.bind_eq_bind, Option.some_bind]
    rw [ih { f with u := f.u.set uo b } (uo + 1)
      (by simp [List.length_set]; omega)]
    rfl

theorem wrVList_in : ∀ (l : List Nat) (f : Frame) (vo : Nat),
    vo + l.length ≤ f.v.length →
    wrVList f vo l = some { f with v := setSeg f.v vo l } := by
  intro l
  induction l with
  | nil => intro f vo _; simp [wrVList, setSeg]
  | cons b rest ih =>
    intro f vo hb
    simp only [List.length_cons] at hb
    simp only [wrVList, wrV_in f vo b (by omega), Option.bind_eq_bind, Option.some_bind]
    rw [ih { f with v := f.v.set vo b } (vo + 1)
      (by simp [List.length_set]; omega)]
    rfl

theorem setSeg_cons2 (buf : List Nat) (off a b : Nat) (rest : List Nat) :
    setSeg buf off (a :: b :: rest) =
      setSeg ((buf.set off a).set (off + 1) b) (off + 2) rest := by
  simp only [setSeg]

theorem sampleBytes_luma_cons (src : List Nat) (so n : Nat) :
    sampleBytes src so 2 (2 * (n + 1)) =
      src.getD so 0 :: src.getD (so + 2) 0 :: sampleBytes src (so + 4) 2 (2 * n) := by
  have e : 2 * (n + 1) = 2 * n + 1 + 1 := by ring
  rw [e]
  simp only [sampleBytes]

/-! ### Characterization of the portable row unpackers -/

theorem unpack_even_go_spec : ∀ (n : Nat) (f : Frame) (yo uo vo so : Nat),
    so + 4 * n ≤ f.src.length → yo + 2 * n ≤ f.y.length →
    uo + n ≤ f.u.length → vo + n ≤ f.v.length →
    unpack_even_go f yo uo vo so n =
      some { f with
        y := setSeg f.y yo (sampleBytes f.src so 2 (2 * n)),
        u := setSeg f.u uo (sampleBytes f.src (so + 1) 4 n),
        v := setSeg f.v vo (sampleBytes f.src (so + 3) 4 n) } := by
  intro n
  induction n with
  | zero =>
    intro f yo uo vo so _ _ _ _
    simp [unpack_even_go, sampleBytes, setSeg]
  | succ n ih =>
    intro f yo uo vo so hs hy hu hv
    have es : 4 * (n + 1) = 4 * n + 4 := by ring
    have ey : 2 * (n + 1) = 2 * n + 2 := by ring
    rw [es] at hs
    rw [ey] at hy
    have hs0 : so < f.src.length := by omega
    have hs1 : so + 1 < f.src.length := by omega
    have hs2 : so + 2 < f.src.length := by omega
    have hs3 : so + 3 < f.src.length := by omega
    have hy0 : yo < f.y.length := by omega
    have hy1 : yo + 1 < f.y.length := by omega
    have hu0 : uo < f.u.length := by omega
    have hv0 : vo < f.v.length := by omega
    simp only [unpack_even_go, Option.bind_eq_bind, Option.some_bind,
      rd_in, wrY_in, wrU_in, wrV_in, List.length_set,
      hs0, hs1, hs2, hs3, hy0, hy1, hu0, hv0]
    rw [ih { f with
        y := (f.y.set yo (f.src.getD so 0)).set (yo + 1) (f.src.getD (so + 2) 0),
        u := f.u.set uo (f.src.getD (so + 1) 0),
        v := f.v.set vo (f.src.getD (so + 3) 0) }
      (yo + 2) (uo + 1) (vo + 1) (so + 4)
      (by simp; omega) (by simp [List.length_set]; omega)
      (by simp [List.length_set]; omega) (by simp [List.length_set]; omega)]
    simp only [Option.some.injEq, Frame.mk.injEq, and_true, true_and]
    refine ⟨?_, ?_, ?_⟩
    · rw [sampleBytes_luma_cons, setSeg_cons2]
    · have e : so + 1 + 4 = so + 4 + 1 := by omega
      simp only [sampleBytes, setSeg, e]
    · have e : so + 3 + 4 = so + 4 + 3 := by omega
      simp only [sampleBytes, setSeg, e]

theorem unpack_odd_go_spec : ∀ (n : Nat) (f : Frame) (yo so : Nat),
    so + 4 * n ≤ f.src.length → yo + 2 * n ≤ f.y.length →
    unpack_odd_go f yo so n =
      some { f with y := setSeg f.y yo (sampleBytes f.src so 2 (2 * n)) } := by
  intro n
  induction n with
  | zero =>
    intro f yo so _ _
    simp [unpack_odd_go, sampleBytes, setSeg]
  | succ n ih =>
    intro f yo so hs hy
    have es : 4 * (n + 1) = 4 * n + 4 := by ring
    have ey : 2 * (n + 1) = 2 * n + 2 := by ring
    rw [es] at hs
    rw [ey] at hy
    have hs0 : so < f.src.length := by omega
    have hs2 : so + 2 < f.src.length := by omega
    have hy0 : yo < f.y.length := by omega
    have hy1 : yo + 1 < f.y.length := by omega
    simp only [unpack_odd_go, Option.bind_eq_bind, Option.some_bind,
      rd_in, wrY_in, List.length_set, hs0, hs2, hy0, hy1]
    rw [ih { f with
        y := (f.y.set yo (f.src.getD so 0)).set (yo + 1) (f.src.getD (so + 2) 0) }
      (yo + 2) (so + 4)
      (by simp; omega) (by simp [List.length_set]; omega)]
    simp only [Option.some.injEq, Frame.mk.injEq, and_true, true_and]
    rw [sampleBytes_luma_cons, setSeg_cons2]

/-! ### Characterization of the NEON row unpackers -/

theorem unpack_even_neon_go_spec : ∀ (n : Nat) (f : Frame) (yo uo vo so : Nat),
    so + 32 * n ≤ f.src.length → yo + 16 * n ≤ f.y.length →
    uo + 8 * n ≤ f.u.length → vo + 8 * n ≤ f.v.length →
    unpack_even_neon_go f yo uo vo so n =
      some { f with
        y := setSeg f.y yo (sampleBytes f.src so 2 (16 * n)),
        u := setSeg f.u uo (sampleBytes f.src (so + 1) 4 (8 * n)),
        v := setSeg f.v vo (sampleBytes f.src (so + 3) 4 (8 * n)) } := by
  intro n
  induction n with
  | zero =>
    intro f yo uo vo so _ _ _ _
    simp [unpack_even_neon_go, sampleBytes, setSeg]
  | succ n ih =>
    intro f yo uo vo so hs hy hu hv
    have es : 32 * (n + 1) = 32 * n + 32 := by ring
    have ey : 16 * (n + 1) = 16 * n + 16 := by ring
    have eu : 8 * (n + 1) = 8 * n + 8 := by ring
    rw [es] at hs
    rw [ey] at hy
    rw [eu] at hu
    rw [eu] at hv
    simp only [unpack_even_neon_go, Option.bind_eq_bind]
    rw [rdList_in f 2 16 so (by omega)]
    simp only [Option.some_bind]
    rw [rdList_in f 4 8 (so + 1) (by omega)]
    simp only [Option.some_bind]
    rw [rdList_in f 4 8 (so + 3) (by omega)]
    simp only [Option.some_bind]
    rw [wrYList_in (sampleBytes f.src so 2 16) f yo
      (by rw [sampleBytes_length]; omega)]
    simp only [Option.some_bind]
    rw [wrUList_in (sampleBytes f.src (so + 1) 4 8)
      { f with y := setSeg f.y yo (sampleBytes f.src so 2 16) } uo
      (by simp [sampleBytes_length]; omega)]
    simp only [Option.some_bind]
    rw [wrVList_in (sampleBytes f.src (so + 3) 4 8)
      { f with
        y := setSeg f.y yo (sampleBytes f.src so 2 16),
        u := setSeg f.u uo (sampleBytes f.src (so + 1) 4 8) } vo
      (by simp [sampleBytes_length]; omega)]
    simp only [Option.some_bind]
    rw [ih { f with
        y := setSeg f.y yo (sampleBytes f.src so 2 16),
        u := setSeg f.u uo (sampleBytes f.src (so + 1) 4 8),
        v := setSeg f.v vo (sampleBytes f.src (so + 3) 4 8) }
      (yo + 16) (uo + 8) (vo + 8) (so + 32)
      (by simp; omega) (by simp [setSeg_length]; omega)
      (by simp [setSeg_length]; omega) (by simp [setSeg_length]; omega)]
    simp only [Option.some.injEq, Frame.mk.injEq, and_true, true_and]
    refine ⟨?_, ?_, ?_⟩
    · have e : 16 * (n + 1) = 16 + 16 * n := by ring
      rw [e, sampleBytes_add, setSeg_append, sampleBytes_length]
    · have e : 8 * (n + 1) = 8 + 8 * n := by ring
      rw [e, sampleBytes_add, setSeg_append, sampleBytes_length]
    · have e : 8 * (n + 1) = 8 + 8 * n := by ring
      rw [e, sampleBytes_add, setSeg_append, sampleBytes_length]

theorem unpack_odd_neon_go_spec : ∀ (n : Nat) (f : Frame) (yo so : Nat),
    so + 32 * n ≤ f.src.length → yo + 16 * n ≤ f.y.length →
    unpack_odd_neon_go f yo so n =
      some { f with y := setSeg f.y yo (sampleBytes f.src so 2 (16 * n)) } := by
  intro n
  induction n with
  | zero =>
    intro f yo so _ _
    simp [unpack_odd_neon_go, sampleBytes, setSeg]
  | succ n ih =>
    intro f yo so hs hy
    have es : 32 * (n + 1) = 32 * n + 32 := by ring
    have ey : 16 * (n + 1) = 16 * n + 16 := by ring
    rw [es] at hs
    rw [ey] at hy
    simp only [unpack_odd_neon_go, Option.bind_eq_bind]
    rw [rdList_in f 2 16 so (by omega)]
    simp only [Option.some_bind]
    rw [rdList_in f 2 16 (so + 1) (by omega)]
    simp only [Option.some_bind]
    rw [wrYList_in (sampleBytes f.src so 2 16) f yo
      (by rw [sampleBytes_length]; omega)]
    simp only [Option.some_bind]
    rw [ih { f with y := setSeg f.y yo (sampleBytes f.src so 2 16) }
      (yo + 16) (so + 32)
      (by simp; omega) (by simp [setSeg_length]; omega)]
    simp only [Option.some.injEq, Frame.mk.injEq, and_true, true_and]
    have e : 16 * (n + 1) = 16 + 16 * n := by ring
    rw [e, sampleBytes_add, setSeg_append, sampleBytes_length]

/-! ### Wrapper-level characterizations (per full row, in terms of `stride`) -/

theorem unpack_even_spec (f : Frame) (yo uo vo so stride : Nat)
    (h4 : stride % 4 = 0)
    (hs : so + stride ≤ f.src.length) (hy : yo + stride / 2 ≤ f.y.length)
    (hu : uo + stride / 4 ≤ f.u.length) (hv : vo + stride / 4 ≤ f.v.length) :
    unpack_even f yo uo vo so stride =
      some { f with
        y := setSeg f.y yo (sampleBytes f.src so 2 (stride / 2)),
        u := setSeg f.u uo (sampleBytes f.src (so + 1) 4 (stride / 4)),
        v := setSeg f.v vo (sampleBytes f.src (so + 3) 4 (stride / 4)) } := by
  unfold unpack_even
  have e : (stride + 3) / 4 = stride / 4 := by omega
  rw [e]
  rw [unpack_even_go_spec (stride / 4) f yo uo vo so
    (by omega) (by omega) hu hv]
  have e2 : 2 * (stride / 4) = stride / 2 := by omega
  rw [e2]

theorem unpack_odd_spec (f : Frame) (yo so stride : Nat)
    (h4 : stride % 4 = 0)
    (hs : so + stride ≤ f.src.length) (hy : yo + stride / 2 ≤ f.y.length) :
    unpack_odd f yo so stride =
      some { f with y := setSeg f.y yo (sampleBytes f.src so 2 (stride / 2)) } := by
  unfold unpack_odd
  have e : (stride + 3) / 4 = stride / 4 := by omega
  rw [e]
  rw [unpack_odd_go_spec (stride / 4) f yo so (by omega) (by omega)]
  have e2 : 2 * (stride / 4) = stride / 2 := by omega
  rw [e2]

theorem unpack_even_neon_spec (f : Frame) (yo uo vo so stride : Nat)
    (h32 : stride % 32 = 0)
    (hs : so + stride ≤ f.src.length) (hy : yo + stride / 2 ≤ f.y.length)
    (hu : uo + stride / 4 ≤ f.u.length) (hv : vo + stride / 4 ≤ f.v.length) :
    unpack_even_neon f yo uo vo so stride =
      some { f with
        y := setSeg f.y yo (sampleBytes f.src so 2 (stride / 2)),
        u := setSeg f.u uo (sampleBytes f.src (so + 1) 4 (stride / 4)),
        v := setSeg f.v vo (sampleBytes f.src (so + 3) 4 (stride / 4)) } := by
  unfold unpack_even_neon
  have e : (stride + 31) / 32 = stride / 32 := by omega
  rw [e]
  rw [unpack_even_neon_go_spec (stride / 32) f yo uo vo so
    (by omega) (by omega) (by omega) (by omega)]
  have ey : 16 * (stride / 32) = stride / 2 := by omega
  have eu : 8 * (stride / 32) = stride / 4 := by omega
  rw [ey, eu]

theorem unpack_odd_neon_spec (f : Frame) (yo so stride : Nat)
    (h32 : stride % 32 = 0)
    (hs : so + stride ≤ f.src.length) (hy : yo + stride / 2 ≤ f.y.length) :
    unpack_odd_neon f yo so stride =
      some { f with y := setSeg f.y yo (sampleBytes f.src so 2 (stride / 2)) } := by
  unfold unpack_odd_neon
  have e : (stride + 31) / 32 = stride / 32 := by omega
  rw [e]
  rw [unpack_odd_neon_go_spec (stride / 32) f yo so (by omega) (by omega)]
  have ey : 16 * (stride / 32) = stride / 2 := by omega
  rw [ey]

/-! ### Characterization of the frame converter -/

theorem yuyv_go_spec (stride : Nat) (h4 : stride % 4 = 0) :
    ∀ (m : Nat) (f : Frame) (yo uo vo so : Nat),
      so + 2 * (m * stride) ≤ f.src.length →
      yo + m * stride ≤ f.y.length →
      uo + m * (stride / 4) ≤ f.u.length →
      vo + m * (stride / 4) ≤ f.v.length →
      yuyv_to_yuv420p_go f yo uo vo so stride m =
        some { f with
          y := setSeg f.y yo (sampleBytes f.src so 2 (m * stride)),
          u := setSeg f.u uo (chromaSeg f.src (so + 1) stride m),
          v := setSeg f.v vo (chromaSeg f.src (so + 3) stride m) } := by
  intro m
  induction m with
  | zero =>
    intro f yo uo vo so _ _ _ _
    simp [yuyv_to_yuv420p_go, sampleBytes, chromaSeg, setSeg]
  | succ m ih =>
    intro f yo uo vo so hs hy hu hv
    have e0 : 2 * ((m + 1) * stride) = 2 * stride + 2 * (m * stride) := by ring
    have e1 : (m + 1) * stride = stride + m * stride := by ring
    have e2 : (m + 1) * (stride / 4) = stride / 4 + m * (stride / 4) := by ring
    rw [e0] at hs
    rw [e1] at hy
    rw [e2] at hu
    rw [e2] at hv
    simp only [yuyv_to_yuv420p_go, Option.bind_eq_bind]
    rw [unpack_even_spec f yo uo vo so stride h4
      (by omega) (by omega) (by omega) (by omega)]
    simp only [Option.some_bind]
    rw [unpack_odd_spec { f with
        y := setSeg f.y yo (sampleBytes f.src so 2 (stride / 2)),
        u := setSeg f.u uo (sampleBytes f.src (so + 1) 4 (stride / 4)),
        v := setSeg f.v vo (sampleBytes f.src (so + 3) 4 (stride / 4)) }
      (yo + stride / 2) (so + stride) stride h4
      (by simp; omega) (by simp [setSeg_length]; omega)]
    simp only [Option.some_bind]
    rw [ih { f with
        y := setSeg (setSeg f.y yo (sampleBytes f.src so 2 (stride / 2)))
          (yo + stride / 2) (sampleBytes f.src (so + stride) 2 (stride / 2)),
        u := setSeg f.u uo (sampleBytes f.src (so + 1) 4 (stride / 4)),
        v := setSeg f.v vo (sampleBytes f.src (so + 3) 4 (stride / 4)) }
      (yo + stride / 2 + stride / 2) (uo + stride / 4) (vo + stride / 4)
      (so + stride + stride)
      (by simp; omega) (by simp [setSeg_length]; omega)
      (by simp [setSeg_length]; omega) (by simp [setSeg_length]; omega)]
    simp only [Option.some.injEq, Frame.mk.injEq, and_true, true_and]
    refine ⟨?_, ?_, ?_⟩
    · have ec : (m + 1) * stride = stride / 2 + (stride / 2 + m * stride) := by
        omega
      rw [ec, sampleBytes_add, sampleBytes_add, setSeg_append, setSeg_append,
        sampleBytes_length, sampleBytes_length]
      have eo1 : so + 2 * (stride / 2) = so + stride := by omega
      rw [eo1]
      have eo2 : so + stride + 2 * (stride / 2) = so + stride + stride := by
        omega
      rw [eo2]
    · simp only [chromaSeg]
      rw [setSeg_append, sampleBytes_length]
      have eo : so + 1 + 2 * stride = so + stride + stride + 1 := by omega
      rw [eo]
    · simp only [chromaSeg]
      rw [setSeg_append, sampleBytes_length]
      have eo : so + 3 + 2 * stride = so + stride + stride + 3 := by omega
      rw [eo]

/-- Top-level characterization for even heights: the conversion performs
`height / 2` row pairs starting at offset 0 in every buffer. -/
theorem yuyv_spec (f : Frame) (stride height : Nat)
    (h4 : stride % 4 = 0) (hh : height % 2 = 0)
    (hs : (height / 2) * (2 * stride) ≤ f.src.length)
    (hy : (height / 2) * stride ≤ f.y.length)
    (hu : (height / 2) * (stride / 4) ≤ f.u.length)
    (hv : (height / 2) * (stride / 4) ≤ f.v.length) :
    yuyv_to_yuv420p f stride height =
      some { f with
        y := setSeg f.y 0 (sampleBytes f.src 0 2 ((height / 2) * stride)),
        u := setSeg f.u 0 (chromaSeg f.src 1 stride (height / 2)),
        v := setSeg f.v 0 (chromaSeg f.src 3 stride (height / 2)) } := by
  unfold yuyv_to_yuv420p
  have e : (height + 1) / 2 = height / 2 := by omega
  rw [e]
  rw [yuyv_go_spec stride h4 (height / 2) f 0 0 0 0
    (by have e2 : 2 * (height / 2 * stride) = height / 2 * (2 * stride) := by
          ring
        omega)
    (by omega) (by omega) (by omega)]

/-! ### Frame-effect (purity) lemmas: every operation leaves the source
buffer untouched and never resizes a destination buffer -/

theorem preserves_refl (f : Frame) : preserves f f :=
  ⟨rfl, rfl, rfl, rfl⟩

theorem preserves_trans {a b c : Frame} (h1 : preserves a b)
    (h2 : preserves b c) : preserves a c := by
  obtain ⟨s1, y1, u1, v1⟩ := h1
  obtain ⟨s2, y2, u2, v2⟩ := h2
  exact ⟨s2.trans s1, y2.trans y1, u2.trans u1, v2.trans v1⟩

theorem wrY_pres {f : Frame} {i b : Nat} {f' : Frame}
    (h : wrY f i b = some f') : preserves f f' := by
  unfold wrY wr at h
  by_cases hc : i < f.y.length
  · simp only [hc, if_true, Option.map_some', Option.some.injEq] at h
    subst h
    exact ⟨rfl, by simp [List.length_set], rfl, rfl⟩
  · simp [hc] at h

theorem wrU_pres {f : Frame} {i b : Nat} {f' : Frame}
    (h : wrU f i b = some f') : preserves f f' := by
  unfold wrU wr at h
  by_cases hc : i < f.u.length
  · simp only [hc, if_true, Option.map_some', Option.some.injEq] at h
    subst h
    exact ⟨rfl, rfl, by simp [List.length_set], rfl⟩
  · simp [hc] at h

theorem wrV_pres {f : Frame} {i b : Nat} {f' : Frame}
    (h : wrV f i b = some f') : preserves f f' := by
  unfold wrV wr at h
  by_cases hc : i < f.v.length
  · simp only [hc, if_true, Option.map_some', Option.some.injEq] at h
    subst h
    exact ⟨rfl, rfl, rfl, by simp [List.length_set]⟩
  · simp [hc] at h

theorem unpack_even_go_pres : ∀ (n : Nat) (f : Frame) (yo uo vo so : Nat)
    (f' : Frame), unpack_even_go f yo uo vo so n = some f' →
    preserves f f' := by
  intro n
  induction n with
  | zero =>
    intro f yo uo vo so f' h
    simp only [unpack_even_go, Option.some.injEq] at h
    subst h
    exact preserves_refl f
  | succ n ih =>
    intro f yo uo vo so f' h
    simp only [unpack_even_go, Option.bind_eq_bind, Option.bind_eq_some] at h
    obtain ⟨b0, _, f1, h1, b1, _, f2, h2, b2, _, f3, h3, b3, _, f4, h4, hrec⟩ := h
    exact preserves_trans (wrY_pres h1) (preserves_trans (wrU_pres h2)
      (preserves_trans (wrY_pres h3) (preserves_trans (wrV_pres h4)
        (ih f4 (yo + 2) (uo + 1) (vo + 1) (so + 4) f' hrec))))

theorem unpack_odd_go_pres : ∀ (n : Nat) (f : Frame) (yo so : Nat)
    (f' : Frame), unpack_odd_go f yo so n = some f' → preserves f f' := by
  intro n
  induction n with
  | zero =>
    intro f yo so f' h
    simp only [unpack_odd_go, Option.some.injEq] at h
    subst h
    exact preserves_refl f
  | succ n ih =>
    intro f yo so f' h
    simp only [unpack_odd_go, Option.bind_eq_bind, Option.bind_eq_some] at h
    obtain ⟨b0, _, f1, h1, b2, _, f2, h2, hrec⟩ := h
    exact preserves_trans (wrY_pres h1) (preserves_trans (wrY_pres h2)
      (ih f2 (yo + 2) (so + 4) f' hrec))

theorem yuyv_go_pres : ∀ (n : Nat) (f : Frame) (yo uo vo so stride : Nat)
    (f' : Frame), yuyv_to_yuv420p_go f yo uo vo so stride n = some f' →
    preserves f f' := by
  intro n
  induction n with
  | zero =>
    intro f yo uo vo so stride f' h
    simp only [yuyv_to_yuv420p_go, Option.some.injEq] at h
    subst h
    exact preserves_refl f
  | succ n ih =>
    intro f yo uo vo so stride f' h
    simp only [yuyv_to_yuv420p_go, Option.bind_eq_bind,
      Option.bind_eq_some] at h
    obtain ⟨f1, h1, f2, h2, hrec⟩ := h
    exact preserves_trans (unpack_even_go_pres _ _ _ _ _ _ _ h1)
      (preserves_trans (unpack_odd_go_pres _ _ _ _ _ h2)
        (ih f2 _ _ _ _ _ f' hrec))

/-! ### Claim theorems -/

/-- Claim C1: for the minimal frame `width = 4, height = 2, stride = 8`
with source row 0 = `[100,128,101,64,102,128,103,64]` and source row 1
luma `110,111,112,113` (row-1 chroma bytes arbitrary — they are
universally quantified and never read), the conversion writes luma rows
`[100,101,102,103]` and `[110,111,112,113]`, U row `[128,128]` and V row
`[64,64]`. -/
theorem minimal_frame_conversion (a b c d : Nat) :
    yuyv_to_yuv420p
      { y := List.replicate 8 0, u := List.replicate 2 0,
        v := List.replicate 2 0,
        src := [100, 128, 101, 64, 102, 128, 103, 64,
                110, a, 111, b, 112, c, 113, d] } 8 2 =
      some { y := [100, 101, 102, 103, 110, 111, 112, 113],
             u := [128, 128], v := [64, 64],
             src := [100, 128, 101, 64, 102, 128, 103, 64,
                     110, a, 111, b, 112, c, 113, d] } := rfl

/-- Claim C2: for a source row of `stride` bytes (`stride` a positive
multiple of 4), the even-row unpacker overwrites exactly `stride / 2` luma
bytes, `stride / 4` U bytes and `stride / 4` V bytes, leaving everything
else unchanged; the luma segment is the source bytes at even offsets
`so, so+2, …` (i.e. `Y0` then `Y1` of each 4-byte group `[Y0,U,Y1,V]`, in
order), the U segment the bytes at `so+1, so+5, …` and the V segment the
bytes at `so+3, so+7, …` — each an unmodified byte copy. -/
theorem even_row_unpacker_contract (f : Frame) (yo uo vo so stride : Nat)
    (_hpos : 0 < stride) (h4 : stride % 4 = 0)
    (hs : so + stride ≤ f.src.length) (hy : yo + stride / 2 ≤ f.y.length)
    (hu : uo + stride / 4 ≤ f.u.length) (hv : vo + stride / 4 ≤ f.v.length) :
    unpack_even f yo uo vo so stride =
      some { f with
        y := setSeg f.y yo (sampleBytes f.src so 2 (stride / 2)),
        u := setSeg f.u uo (sampleBytes f.src (so + 1) 4 (stride / 4)),
        v := setSeg f.v vo (sampleBytes f.src (so + 3) 4 (stride / 4)) } :=
  unpack_even_spec f yo uo vo so stride h4 hs hy hu hv

theorem even_row_unpacker_contract_witness :
    unpack_even testFrame 0 0 0 0 8 =
      some { testFrame with
        y := setSeg testFrame.y 0 (sampleBytes testFrame.src 0 2 (8 / 2)),
        u := setSeg testFrame.u 0 (sampleBytes testFrame.src (0 + 1) 4 (8 / 4)),
        v := setSeg testFrame.v 0 (sampleBytes testFrame.src (0 + 3) 4 (8 / 4)) } :=
  even_row_unpacker_contract testFrame 0 0 0 0 8 (by decide) (by decide)
    (by decide) (by decide) (by decide) (by decide)

/-- Claim C3: for a source row of `stride` bytes (`stride` a positive
multiple of 4), the odd-row unpacker overwrites exactly `stride / 2` luma
bytes — the source bytes at even offsets `so, so+2, so+4, …`, skipping
every chroma byte position — and leaves the U and V planes untouched (the
`u` and `v` fields of the result are exactly those of the input frame). -/
theorem odd_row_unpacker_contract (f : Frame) (yo so stride : Nat)
    (_hpos : 0 < stride) (h4 : stride % 4 = 0)
    (hs : so + stride ≤ f.src.length) (hy : yo + stride / 2 ≤ f.y.length) :
    unpack_odd f yo so stride =
      some { f with y := setSeg f.y yo (sampleBytes f.src so 2 (stride / 2)) } :=
  unpack_odd_spec f yo so stride h4 hs hy

theorem odd_row_unpacker_contract_witness :
    unpack_odd testFrame 0 8 8 =
      some { testFrame with
        y := setSeg testFrame.y 0 (sampleBytes testFrame.src 8 2 (8 / 2)) } :=
  odd_row_unpacker_contract testFrame 0 8 8 (by decide) (by decide)
    (by decide) (by decide)

/-- Claim C5: whenever the preconditions of both strategies hold
(`stride = 2 * width` divisible by 32, hence `width` even, and all
accessed bytes in range), the portable 4-byte-group unpackers and the
NEON 32-byte-block unpackers produce identical results — byte-identical
luma, U and V planes — for both the even-row and the odd-row routine.
(`height` plays no role in a single-row unpacker.) -/
theorem strategy_equivalence (f : Frame) (yo uo vo so width stride : Nat)
    (hw : stride = 2 * width) (h32 : stride % 32 = 0)
    (hs : so + stride ≤ f.src.length) (hy : yo + stride / 2 ≤ f.y.length)
    (hu : uo + stride / 4 ≤ f.u.length) (hv : vo + stride / 4 ≤ f.v.length) :
    unpack_even f yo uo vo so stride = unpack_even_neon f yo uo vo so stride ∧
    unpack_odd f yo so stride = unpack_odd_neon f yo so stride := by
  have h4 : stride % 4 = 0 := by omega
  constructor
  · rw [unpack_even_spec f yo uo vo so stride h4 hs hy hu hv,
      unpack_even_neon_spec f yo uo vo so stride h32 hs hy hu hv]
  · rw [unpack_odd_spec f yo so stride h4 hs hy,
      unpack_odd_neon_spec f yo so stride h32 hs hy]

theorem strategy_equivalence_witness :
    unpack_even testFrame32 0 0 0 0 32 =
        unpack_even_neon testFrame32 0 0 0 0 32 ∧
      unpack_odd testFrame32 0 0 32 = unpack_odd_neon testFrame32 0 0 32 :=
  strategy_equivalence testFrame32 0 0 0 0 16 32 (by decide) (by decide)
    (by decide) (by decide) (by decide) (by decide)

/-- Claim C7 counterexample: the conversion does NOT reject odd geometry.
A call with odd `height = 1` (on the minimal 4×2 source) is silently
processed — it returns a successfully written result (it runs one full row
pair, so it even fills luma row 1 from the bytes that follow the one-row
frame), rather than returning an error or leaving the buffers unchanged.
There is no `InvalidGeometry` check anywhere in `yuyv_to_yuv420p`. -/
theorem no_geometry_check_cex :
    yuyv_to_yuv420p testFrame 8 1 = some testFrameOut ∧
      yuyv_to_yuv420p testFrame 8 1 ≠ none ∧
      yuyv_to_yuv420p testFrame 8 1 ≠ some testFrame := by
  decide

/-- Claim C7 as amended: `yuyv_to_yuv420p` performs no geometry
validation at all.  A call with odd `height` is silently processed as
`(height + 1) / 2` full row pairs (a `height = 1` call behaves exactly
like a `height = 2` call), and a call with odd width (`width = 3`,
`stride = 6`) is silently processed too, with misaligned luma writes (the
odd row starts at luma offset 3, overwriting the 4th byte the even row
wrote) — no `InvalidGeometry` error exists and no input is rejected. -/
theorem no_geometry_check_amended :
    yuyv_to_yuv420p testFrame 8 1 = yuyv_to_yuv420p testFrame 8 2 ∧
      yuyv_to_yuv420p testFrame6 6 2 =
        some { y := [1, 3, 5, 7, 9, 11, 13, 0, 0, 0, 0, 0, 0, 0, 0, 0],
               u := [2, 6, 0, 0], v := [4, 8, 0, 0],
               src := [1, 2, 3, 4, 5, 6, 7, 8, 9, 10, 11, 12, 13, 14, 15, 16] } := by
  decide

/-- Claim C8: the kernel is a pure transform over the four caller-supplied
buffers.  Whenever a call completes, the packed source buffer is
byte-for-byte unchanged and no destination buffer has been resized — the
only effect is new contents inside the three destination planes.  (In this
embedding the kernel is a mathematical function of its arguments, so it
can read or retain no state besides the `Frame` passed in.) -/
theorem kernel_pure_transform (f : Frame) (stride height : Nat) (f' : Frame)
    (h : yuyv_to_yuv420p f stride height = some f') : preserves f f' :=
  yuyv_go_pres ((height + 1) / 2) f 0 0 0 0 stride f' h

theorem kernel_pure_transform_witness : preserves testFrame testFrameOut :=
  kernel_pure_transform testFrame 8 2 testFrameOut (by decide)

/-- Claim C10: for an odd `height` the row loop `for (row = 0;
row < height; row += 2)` still runs `(height + 1) / 2` complete
iterations — it does not stop after the final even row — so the call is
indistinguishable from a call with `height + 1`: it consumes
`(height + 1) * stride` source bytes and writes `(height + 1) * stride / 2`
luma bytes, one full row pair beyond an odd frame of `height` rows. -/
theorem odd_height_extra_pair (f : Frame) (stride height : Nat)
    (hh : height % 2 = 1) :
    yuyv_to_yuv420p f stride height = yuyv_to_yuv420p f stride (height + 1) := by
  unfold yuyv_to_yuv420p
  have e : (height + 1) / 2 = (height + 1 + 1) / 2 := by omega
  rw [e]

theorem odd_height_extra_pair_witness :
    1 % 2 = 1 ∧
      yuyv_to_yuv420p testFrame 8 1 = yuyv_to_yuv420p testFrame 8 (1 + 1) :=
  ⟨by decide, odd_height_extra_pair testFrame 8 1 (by decide)⟩

/-- Claim C4: for every even `height` and valid stride (multiple of 4 for
the portable strategy), the conversion performs `height / 2` row pairs.
Each pair writes two luma rows contiguously (the luma offset advances by
`stride / 2` after each of the two rows, so the whole plane is the single
contiguous segment `sampleBytes … ((height/2) * stride)` of even-offset
source bytes), one U row and one V row (`chromaSeg`: exactly one
`stride / 4`-byte chroma row per pair — the chroma offsets advance by
`stride / 4` only after the even row — whose sampling offset advances by
`2 * stride`, the two source rows consumed per pair). -/
theorem frame_converter_row_pairs (f : Frame) (stride height : Nat)
    (h4 : stride % 4 = 0) (hh : height % 2 = 0)
    (hs : (height / 2) * (2 * stride) ≤ f.src.length)
    (hy : (height / 2) * stride ≤ f.y.length)
    (hu : (height / 2) * (stride / 4) ≤ f.u.length)
    (hv : (height / 2) * (stride / 4) ≤ f.v.length) :
    yuyv_to_yuv420p f stride height =
      some { f with
        y := setSeg f.y 0 (sampleBytes f.src 0 2 ((height / 2) * stride)),
        u := setSeg f.u 0 (chromaSeg f.src 1 stride (height / 2)),
        v := setSeg f.v 0 (chromaSeg f.src 3 stride (height / 2)) } :=
  yuyv_spec f stride height h4 hh hs hy hu hv

theorem frame_converter_row_pairs_witness :
    yuyv_to_yuv420p testFrame 8 2 =
      some { testFrame with
        y := setSeg testFrame.y 0 (sampleBytes testFrame.src 0 2 ((2 / 2) * 8)),
        u := setSeg testFrame.u 0 (chromaSeg testFrame.src 1 8 (2 / 2)),
        v := setSeg testFrame.v 0 (chromaSeg testFrame.src 3 8 (2 / 2)) } :=
  frame_converter_row_pairs testFrame 8 2 (by decide) (by decide) (by decide)
    (by decide) (by decide) (by decide)

/-- Claim C6: on any valid frame, the U and V output bytes of chroma block
row `r`, column `c` are exactly the chroma bytes of source row `2 * r`
(the even row of the pair): the U byte is source byte `2*stride*r + 4*c + 1`
and the V byte is source byte `2*stride*r + 4*c + 3`, and both offsets lie
strictly inside row `2*r` (the third conjunct `4*c + 3 < stride`), so the
chroma output never depends on any byte of the odd source row `2*r + 1`. -/
theorem chroma_from_even_row (f : Frame) (stride height r c : Nat)
    (h4 : stride % 4 = 0) (hh : height % 2 = 0)
    (hs : (height / 2) * (2 * stride) ≤ f.src.length)
    (hy : (height / 2) * stride ≤ f.y.length)
    (hu : (height / 2) * (stride / 4) ≤ f.u.length)
    (hv : (height / 2) * (stride / 4) ≤ f.v.length)
    (hr : r < height / 2) (hc : c < stride / 4) :
    ∀ f', yuyv_to_yuv420p f stride height = some f' →
      f'.u[r * (stride / 4) + c]? =
          some (f.src.getD (2 * stride * r + (4 * c + 1)) 0) ∧
        f'.v[r * (stride / 4) + c]? =
          some (f.src.getD (2 * stride * r + (4 * c + 3)) 0) ∧
        4 * c + 3 < stride := by
  intro f' h
  rw [yuyv_spec f stride height h4 hh hs hy hu hv] at h
  injection h with h
  subst h
  have hr1 : r + 1 ≤ height / 2 := hr
  refine ⟨?_, ?_, by omega⟩
  · show (setSeg f.u 0 (chromaSeg f.src 1 stride (height / 2)))[r * (stride / 4) + c]? = _
    have hk : r * (stride / 4) + c <
        (chromaSeg f.src 1 stride (height / 2)).length := by
      rw [chromaSeg_length]
      calc r * (stride / 4) + c
          < r * (stride / 4) + stride / 4 := by omega
        _ = (r + 1) * (stride / 4) := by ring
        _ ≤ (height / 2) * (stride / 4) := Nat.mul_le_mul_right _ hr1
    have hb : 0 + (chromaSeg f.src 1 stride (height / 2)).length ≤
        f.u.length := by
      rw [chromaSeg_length]; omega
    have h0 := setSeg_getElem?_in (chromaSeg f.src 1 stride (height / 2)) f.u 0
      (r * (stride / 4) + c) hk hb
    rw [Nat.zero_add] at h0
    rw [h0, chromaSeg_getElem? f.src stride (height / 2) 1 r c hr hc]
    have e : 1 + 2 * stride * r + 4 * c = 2 * stride * r + (4 * c + 1) := by
      ring
    rw [e]
  · show (setSeg f.v 0 (chromaSeg f.src 3 stride (height / 2)))[r * (stride / 4) + c]? = _
    have hk : r * (stride / 4) + c <
        (chromaSeg f.src 3 stride (height / 2)).length := by
      rw [chromaSeg_length]
      calc r * (stride / 4) + c
          < r * (stride / 4) + stride / 4 := by omega
        _ = (r + 1) * (stride / 4) := by ring
        _ ≤ (height / 2) * (stride / 4) := Nat.mul_le_mul_right _ hr1
    have hb : 0 + (chromaSeg f.src 3 stride (height / 2)).length ≤
        f.v.length := by
      rw [chromaSeg_length]; omega
    have h0 := setSeg_getElem?_in (chromaSeg f.src 3 stride (height / 2)) f.v 0
      (r * (stride / 4) + c) hk hb
    rw [Nat.zero_add] at h0
    rw [h0, chromaSeg_getElem? f.src stride (height / 2) 3 r c hr hc]
    have e : 3 + 2 * stride * r + 4 * c = 2 * stride * r + (4 * c + 3) := by
      ring
    rw [e]

theorem chroma_from_even_row_witness :
    testFrameOut.u[0 * (8 / 4) + 1]? =
        some (testFrame.src.getD (2 * 8 * 0 + (4 * 1 + 1)) 0) ∧
      testFrameOut.v[0 * (8 / 4) + 1]? =
        some (testFrame.src.getD (2 * 8 * 0 + (4 * 1 + 3)) 0) ∧
      4 * 1 + 3 < 8 :=
  chroma_from_even_row testFrame 8 2 0 1 (by decide) (by decide) (by decide)
    (by decide) (by decide) (by decide) (by decide) (by decide)
    testFrameOut (by decide)

/-- Claim C9: under the portable-strategy preconditions (`stride` a
positive multiple of 4, `height` even) and exactly sized buffers (source
`height * stride` bytes, luma `height * stride / 2` bytes, U and V
`(height / 2) * (stride / 4)` bytes each), the conversion succeeds: in
this total embedding, where every out-of-range read or write returns
`none`, the error branch is unreachable — every access stays inside its
buffer. -/
theorem conversion_memory_safe (f : Frame) (stride height : Nat)
    (_hpos : 0 < stride) (h4 : stride % 4 = 0) (hh : height % 2 = 0)
    (hsrc : f.src.length = height * stride)
    (hy : f.y.length = height * (stride / 2))
    (hu : f.u.length = (height / 2) * (stride / 4))
    (hv : f.v.length = (height / 2) * (stride / 4)) :
    (yuyv_to_yuv420p f stride height).isSome = true := by
  have e1 : (height / 2) * (2 * stride) = height * stride := by
    have e : height = 2 * (height / 2) := by omega
    calc (height / 2) * (2 * stride) = 2 * (height / 2) * stride := by ring
      _ = height * stride := by rw [← e]
  have e2 : (height / 2) * stride = height * (stride / 2) := by
    have ea : height = 2 * (height / 2) := by omega
    have eb : stride = 2 * (stride / 2) := by omega
    calc (height / 2) * stride
        = (height / 2) * (2 * (stride / 2)) := by rw [← eb]
      _ = 2 * (height / 2) * (stride / 2) := by ring
      _ = height * (stride / 2) := by rw [← ea]
  rw [yuyv_spec f stride height h4 hh (by omega) (by omega) (by omega)
    (by omega)]
  rfl

theorem conversion_memory_safe_witness :
    (yuyv_to_yuv420p testFrame 8 2).isSome = true :=
  conversion_memory_safe testFrame 8 2 (by decide) (by decide) (by decide)
    (by decide) (by decide) (by decide) (by decide)

end YUYV
